import Mathlib

-- Verification of the `pbf` protobuf wire-format codec (src/lib.rs, src/bit_cast.rs).
--
-- The Rust code is shallowly embedded: the `Protobuf` struct (a byte buffer
-- plus a read cursor) becomes a Lean structure over `List Nat` (each entry a
-- byte, i.e. < 256, maintained by construction on the write side); `&mut self`
-- methods become functions returning a new state; Rust panics (explicit
-- `panic!` / `unreachable!` and out-of-bounds indexing) become `Option.none`.
-- Machine integers (u64, usize) are modelled as `Nat` with explicit `% 2 ^ 64`
-- where Rust wrapping matters; i64/i32 values are `Int` with explicit
-- two's-complement conversions.  The build targets a little-endian host, so the
-- `cfg!(target_endian = "big")` byte-swap branches in `read_fixed` /
-- `write_fixed` are compiled out and not modelled.

namespace Pbf

-- const MAX_VARINT_LENGTH: usize = u64::BITS as usize * 8 / 7 + 1;  (= 74)
def MAX_VARINT_LENGTH : Nat := 64 * 8 / 7 + 1

-- const BIT_SHIFT: [u64; 10] = [0, 7, 14, 21, 28, 35, 42, 49, 56, 63];
def BIT_SHIFT : List Nat := [0, 7, 14, 21, 28, 35, 42, 49, 56, 63]

-- Rust `enum Type` (the wire-type enumeration).  `Type` is a Lean keyword, so
-- the enum is named `WireType` here; variants keep their source names.
inductive WireType
  | Varint
  | Fixed64
  | Bytes
  | Fixed32
  | None
deriving DecidableEq

-- impl From<u8> for Type: matches on `val & 0x7`, panicking ("Invalid value
-- for Type") on 3, 4, 6; the panic is modelled as `none`.
def type_from_u8 (val : Nat) : Option WireType :=
  match val &&& 0x7 with
  | 0 => some WireType.Varint
  | 1 => some WireType.Fixed64
  | 2 => some WireType.Bytes
  | 5 => some WireType.Fixed32
  | 7 => some WireType.None
  | _ => none

-- impl From<Type> for u64.
def type_to_u64 (t : WireType) : Nat :=
  match t with
  | WireType.Varint => 0
  | WireType.Fixed64 => 1
  | WireType.Bytes => 2
  | WireType.Fixed32 => 5
  | WireType.None => 7

-- pub struct Field { tag: u64, r#type: Type }
structure Field where
  tag : Nat
  type : WireType
deriving DecidableEq

-- pub struct Protobuf { buf: RefCell<Vec<u8>>, pos: usize }
-- The RefCell is interior-mutability plumbing only; the buffer is a plain
-- byte list here.
structure Protobuf where
  buf : List Nat
  pos : Nat
deriving DecidableEq

def Protobuf.new : Protobuf := { buf := [], pos := 0 }

def Protobuf.from_input (buf : List Nat) : Protobuf := { buf := buf, pos := 0 }

-- pub fn set_pos(&mut self, pos: usize) { self.pos = pos; }
def Protobuf.set_pos (pb : Protobuf) (pos : Nat) : Protobuf := { pb with pos := pos }

-- pub fn len(&self) -> usize
def Protobuf.len (pb : Protobuf) : Nat := pb.buf.length

-- The `for (n, shift) in BIT_SHIFT.iter().enumerate().take(MAX_VARINT_LENGTH)`
-- loop of `decode_varint`, for iterations n = 1 .. 9 (the n = 0 iteration is
-- handled in `decode_varint` itself).  `rem` counts the iterations that are
-- still allowed (`BIT_SHIFT` has 10 entries and `take 74` does not shrink
-- that, so the loop body runs at most 10 times); when `rem` reaches 0 the
-- `for` loop is exhausted and the accumulated `val` is returned.  Reading
-- `buf[self.pos]` out of bounds is a Rust panic, modelled as `none`.
def decode_varint_loop (buf : List Nat) (val pos n : Nat) : Nat → Option (Nat × Nat)
  | 0 => some (val, pos)
  | rem + 1 =>
    match buf.get? pos with
    | Option.none => none
    | some b =>
      -- `(b & 0x7f) << shift` is a u64 shift: bits at and above 64 are
      -- discarded (relevant only for the tenth byte, shift 63), hence the
      -- explicit `% 2 ^ 64` on the shifted summand.
      let val1 := val ||| (((b &&& 0x7f) <<< (BIT_SHIFT.getD n 0)) % 2 ^ 64)
      if b < 0x80 then some (val1, pos + 1)
      else decode_varint_loop buf val1 (pos + 1) (n + 1) rem

-- pub fn decode_varint(&mut self) -> u64.  The initial `unreachable!()` guard
-- when `pos >= len` is a panic, modelled as `none`.  The n = 0 iteration of
-- the loop is unrolled here exactly as the source executes it: return `b`
-- when the continuation bit is clear, otherwise seed `val = b & 0x7f` (the
-- `if b < 0x80 break` test after that seeding is kept even though it can
-- never fire on a byte with the continuation bit set).
def Protobuf.decode_varint (pb : Protobuf) : Option (Nat × Protobuf) :=
  if pb.pos ≥ pb.len then none
  else
    match pb.buf.get? pb.pos with
    | Option.none => none
    | some b =>
      if b &&& 0x80 == 0 then some (b, { pb with pos := pb.pos + 1 })
      else if b < 0x80 then some (b &&& 0x7f, { pb with pos := pb.pos + 1 })
      else
        (decode_varint_loop pb.buf (b &&& 0x7f) (pb.pos + 1) 1 9).map
          (fun vp => (vp.1, { pb with pos := vp.2 }))

-- pub fn skip(&mut self, t: Type).  Fixed64/Fixed32 bump the cursor with no
-- bounds check; Bytes first decodes a length varint and then bumps the
-- cursor by it, again unchecked.
def Protobuf.skip (pb : Protobuf) (t : WireType) : Option Protobuf :=
  match t with
  | WireType.Varint => (pb.decode_varint).map (fun vp => vp.2)
  | WireType.Fixed64 => some { pb with pos := pb.pos + 8 }
  | WireType.Fixed32 => some { pb with pos := pb.pos + 4 }
  | WireType.Bytes =>
      (pb.decode_varint).map (fun vp => { vp.2 with pos := vp.2.pos + vp.1 })
  | WireType.None => some pb

-- pub fn read_field(&mut self) -> Field
def Protobuf.read_field (pb : Protobuf) : Option (Field × Protobuf) :=
  (pb.decode_varint).bind fun vp =>
    (type_from_u8 (vp.1 &&& 0x7)).map fun t =>
      ({ tag := vp.1 >>> 3, type := t }, vp.2)

-- pub fn read_bytes(&mut self) -> Vec<u8>.  `buf[self.pos..end]` panics when
-- `end` exceeds the buffer length, modelled as `none`; on success the cursor
-- moves to `end`.
def Protobuf.read_bytes (pb : Protobuf) : Option (List Nat × Protobuf) :=
  (pb.decode_varint).bind fun vp =>
    let endPos := vp.1 + vp.2.pos
    if endPos ≤ vp.2.len then
      some (((vp.2.buf.drop vp.2.pos).take (endPos - vp.2.pos)),
            { vp.2 with pos := endPos })
    else none

-- The `while n < size` loop of `read_fixed`, reading `rem` more bytes;
-- `buf[self.pos]` out of bounds is a panic, modelled as `none`.
def read_fixed_loop (buf : List Nat) (val pos n : Nat) : Nat → Option (Nat × Nat)
  | 0 => some (val, pos)
  | rem + 1 =>
    match buf.get? pos with
    | Option.none => none
    | some b => read_fixed_loop buf (val ||| (b <<< (n <<< 3))) (pos + 1) (n + 1) rem

-- pub fn read_fixed<T: BitCast>(&mut self) -> T, with the generic type
-- abstracted to its byte width `size = size_of::<T>()`; the result is the
-- accumulated u64 word (the caller applies `T::from_u64`).  Little-endian
-- host: the `swap_bytes` branch is compiled out.
def Protobuf.read_fixed (pb : Protobuf) (size : Nat) : Option (Nat × Protobuf) :=
  (read_fixed_loop pb.buf 0 pb.pos 0 size).map
    (fun vp => (vp.1, { pb with pos := vp.2 }))

-- The loop of `read_packed`, decoding varints until the cursor reaches
-- `endPos`.  Every successful `decode_varint` advances the cursor by at least
-- one byte, so the loop runs at most `endPos` times; `fuel` is any bound on
-- the remaining iterations (exhausting it would model non-termination, which
-- cannot occur — `read_packed` below passes a sufficient bound).
def read_packed_loop (endPos : Nat) : Nat → Protobuf → List Nat → Option (List Nat × Protobuf)
  | 0, pb, acc => if pb.pos < endPos then none else some (acc, pb)
  | fuel + 1, pb, acc =>
    if pb.pos < endPos then
      match pb.decode_varint with
      | Option.none => none
      | some vp => read_packed_loop endPos fuel vp.2 (acc ++ [vp.1])
    else some (acc, pb)

-- pub fn read_packed<T: BitCast>(&mut self) -> Vec<T>: `end` is the decoded
-- length plus the cursor; elements are the raw u64 words (the caller applies
-- `T::from_u64`).
def Protobuf.read_packed (pb : Protobuf) : Option (List Nat × Protobuf) :=
  (pb.decode_varint).bind fun vp =>
    read_packed_loop (vp.1 + vp.2.pos) (vp.1 + vp.2.pos + 1) vp.2 []

-- The `while self.pos < end` loop of `read_fields`.  The `ProtoRead`
-- capability `t.read(tag, pbf)` is an arbitrary caller-supplied function
-- `dispatch`, which may mutate both the value and the buffer state; the
-- engine re-invokes `skip` exactly when the cursor did not move.  `dispatch`
-- may rewind the cursor, so the Rust loop need not terminate; `fuel` bounds
-- the iterations and exhausting it with the cursor still short of `endPos`
-- models that non-termination as `none`.
def read_fields_loop {α : Type} (dispatch : α → Nat → Protobuf → α × Protobuf)
    (endPos : Nat) : Nat → α → Protobuf → Option (α × Protobuf)
  | 0, t, pb => if pb.pos < endPos then none else some (t, pb)
  | fuel + 1, t, pb =>
    if pb.pos < endPos then
      match pb.read_field with
      | Option.none => none
      | some fp =>
        let start_pos := fp.2.pos
        let tp := dispatch t fp.1.tag fp.2
        if start_pos == tp.2.pos then
          match tp.2.skip fp.1.type with
          | Option.none => none
          | some pb3 => read_fields_loop dispatch endPos fuel tp.1 pb3
        else read_fields_loop dispatch endPos fuel tp.1 tp.2
    else some (t, pb)

-- pub fn read_fields<T: ProtoRead>(&mut self, t: &mut T, end: Option<usize>)
def Protobuf.read_fields {α : Type} (pb : Protobuf)
    (dispatch : α → Nat → Protobuf → α × Protobuf) (t : α)
    (endOpt : Option Nat) (fuel : Nat) : Option (α × Protobuf) :=
  read_fields_loop dispatch (endOpt.getD pb.len) fuel t pb

-- pub fn read_message<T: ProtoRead>(&mut self, t: &mut T)
def Protobuf.read_message {α : Type} (pb : Protobuf)
    (dispatch : α → Nat → Protobuf → α × Protobuf) (t : α)
    (fuel : Nat) : Option (α × Protobuf) :=
  (pb.decode_varint).bind fun vp =>
    vp.2.read_fields dispatch t (some (vp.1 + vp.2.pos)) fuel

-- The `ProtoRead` capability of the spec's forward-compatibility scenario
-- (mirroring the crate's `test_message_with_skip` test): it recognizes only
-- tag 2, reading its length-prefixed bytes payload into the second component,
-- and consumes nothing for any other tag.  The first component (the tag-1
-- slot) is never written by this dispatch.
def tag2_dispatch (t : Option Nat × Option (List Nat)) (tag : Nat) (pb : Protobuf) :
    (Option Nat × Option (List Nat)) × Protobuf :=
  if tag == 2 then
    match pb.read_bytes with
    | some bp => ((t.1, some bp.1), bp.2)
    | Option.none => (t, pb)
  else (t, pb)

-- pub fn write_varint_to_buffer(buf: &mut Vec<u8>, val: u64).  Note the loop
-- guard is `val > 0x80`, a strict inequality; the `as u8` truncations are the
-- `% 256`.
def write_varint_to_buffer (buf : List Nat) (val : Nat) : List Nat :=
  if val > 0x80 then
    write_varint_to_buffer (buf ++ [((val &&& 0x7f) % 256) ||| 0x80]) (val >>> 7)
  else buf ++ [val % 256]
termination_by val
decreasing_by
  simp only [Nat.shiftRight_eq_div_pow]
  exact Nat.div_lt_self (by omega) (by norm_num)

-- pub fn write_varint(&mut self, val: u64): the same loop as
-- `write_varint_to_buffer`, appending to the internal buffer.
def Protobuf.write_varint (pb : Protobuf) (val : Nat) : Protobuf :=
  { pb with buf := write_varint_to_buffer pb.buf val }

-- The `while n < size` loop of `write_fixed`, pushing `rem` more bytes;
-- byte n is `(val >> (n << 3)) as u8`.
def write_fixed_loop (buf : List Nat) (val n : Nat) : Nat → List Nat
  | 0 => buf
  | rem + 1 => write_fixed_loop (buf ++ [(val >>> (n <<< 3)) % 256]) val (n + 1) rem

-- pub fn write_fixed<T: BitCast>(&mut self, val: T), with the generic type
-- abstracted to its byte width and `val.to_u64()` word.  Little-endian host:
-- the `swap_bytes` branch is compiled out.
def Protobuf.write_fixed (pb : Protobuf) (size : Nat) (val : Nat) : Protobuf :=
  { pb with buf := write_fixed_loop pb.buf val 0 size }

-- pub fn write_field(&mut self, tag: u64, r#type: Type): the key is the u64
-- `(tag << 3) | type`, with the u64 shift wrapping modulo 2^64.
def Protobuf.write_field (pb : Protobuf) (tag : Nat) (t : WireType) : Protobuf :=
  pb.write_varint (((tag <<< 3) % 2 ^ 64) ||| type_to_u64 t)

-- pub fn write_length_varint(&mut self, tag: u64, val: usize)
def Protobuf.write_length_varint (pb : Protobuf) (tag : Nat) (val : Nat) : Protobuf :=
  (pb.write_field tag WireType.Bytes).write_varint val

-- pub fn write_varint_field<T: BitCast>(&mut self, tag: u64, val: T), with
-- `val.to_u64()` abstracted to its u64 word.
def Protobuf.write_varint_field (pb : Protobuf) (tag : Nat) (val : Nat) : Protobuf :=
  (pb.write_field tag WireType.Varint).write_varint val

-- pub fn write_string_field(&mut self, tag: u64, val: &str): `val` is the
-- string's UTF-8 byte sequence (`val.len()` is its byte length).
def Protobuf.write_string_field (pb : Protobuf) (tag : Nat) (val : List Nat) : Protobuf :=
  let pb1 := pb.write_length_varint tag val.length
  { pb1 with buf := pb1.buf ++ val }

-- pub fn write_bytes_field(&mut self, tag: u64, val: &[u8])
def Protobuf.write_bytes_field (pb : Protobuf) (tag : Nat) (val : List Nat) : Protobuf :=
  let pb1 := pb.write_length_varint tag val.length
  { pb1 with buf := pb1.buf ++ val }

-- pub fn write_packed_varint<T: BitCast + Copy>(&mut self, tag: u64, val: &[T]):
-- the elements are their `to_u64()` words; the loop builds the payload with
-- `write_varint_to_buffer` and then appends it after the length field.
def Protobuf.write_packed_varint (pb : Protobuf) (tag : Nat) (val : List Nat) : Protobuf :=
  let bytes := val.foldl (fun acc v => write_varint_to_buffer acc v) []
  let pb1 := pb.write_length_varint tag bytes.length
  { pb1 with buf := pb1.buf ++ bytes }

-- pub fn write_message<T: ProtoWrite>(&mut self, tag: u64, t: &T): the child
-- `Protobuf` that `t.write` fills is abstracted to the byte sequence `bytes`
-- it produces (`pbf.take()`), which is appended after the length field.
def Protobuf.write_message (pb : Protobuf) (tag : Nat) (bytes : List Nat) : Protobuf :=
  let pb1 := pb.write_length_varint tag bytes.length
  { pb1 with buf := pb1.buf ++ bytes }

-- pub fn write_fixed_field<T: BitCast + Copy>(&mut self, tag: u64, val: T),
-- with the generic type abstracted to its byte width and u64 word.  The
-- width match happens first and panics ("Invalid fixed type") on any width
-- other than 4 or 8, before anything is written; the panic is `none`.
def Protobuf.write_fixed_field (pb : Protobuf) (size : Nat) (tag : Nat) (val : Nat) :
    Option Protobuf :=
  (match size with
   | 4 => some WireType.Fixed32
   | 8 => some WireType.Fixed64
   | _ => none).map
    fun t => (pb.write_field tag t).write_fixed size val

-- Signed 64-bit bit patterns: `toU64` is `as u64` / `transmute` of an i64 in
-- range, `toI64` the inverse reinterpretation.
def toU64 (v : Int) : Nat := (v % (2 ^ 64 : Int)).toNat

def toI64 (n : Nat) : Int :=
  if n < 2 ^ 63 then (n : Int) else (n : Int) - 2 ^ 64

-- pub fn zigzag(val: i64) -> u64 { ((val << 1) ^ (val >> 63)) as u64 }.
-- `val << 1` wraps in i64, so its u64 bit pattern is `(2 * val) mod 2^64`;
-- `val >> 63` is an arithmetic shift (`Int.shiftRight` on `Int` is exactly
-- that); the i64 xor acts on the two 64-bit patterns.
def zigzag (val : Int) : Nat :=
  toU64 (val * 2) ^^^ toU64 (Int.shiftRight val 63)

-- pub fn zagzig(val: u64) -> i64 { (val >> 1) as i64 ^ -((val & 1) as i64) }.
-- `val >> 1` is a logical shift whose i64 pattern is `val >>> 1` itself; the
-- i64 xor again acts on bit patterns, and the result is reinterpreted as i64.
def zagzig (val : Nat) : Int :=
  toI64 ((val >>> 1) ^^^ toU64 (-((val &&& 1 : Nat) : Int)))

-- impl BitCast for i32: to_u64 is transmute::<i32, u32> then widen, i.e. the
-- 32-bit two's-complement pattern; from_u64 truncates to u32 and transmutes
-- back to i32.
def i32_to_u64 (v : Int) : Nat := (v % (2 ^ 32 : Int)).toNat

def i32_from_u64 (n : Nat) : Int :=
  if n % 2 ^ 32 < 2 ^ 31 then ((n % 2 ^ 32 : Nat) : Int)
  else ((n % 2 ^ 32 : Nat) : Int) - 2 ^ 32

-- ===== Helper lemmas ========================================================

-- Appending through `write_varint_to_buffer`: the bytes pushed for `val` do
-- not depend on the buffer they are pushed onto.
theorem write_varint_to_buffer_append (val : Nat) :
    ∀ buf : List Nat, write_varint_to_buffer buf val = buf ++ write_varint_to_buffer [] val := by
  induction val using Nat.strong_induction_on with
  | _ val ih =>
    intro buf
    conv_lhs => rw [write_varint_to_buffer]
    conv_rhs => rw [write_varint_to_buffer]
    by_cases h : val > 0x80
    · have hlt : val >>> 7 < val := by
        simp only [Nat.shiftRight_eq_div_pow]
        exact Nat.div_lt_self (by omega) (by norm_num)
      rw [if_pos h, if_pos h, ih (val >>> 7) hlt, ih (val >>> 7) hlt ([] ++ _)]
      simp [List.append_assoc]
    · rw [if_neg h, if_neg h]
      simp

-- Appending through the `write_fixed` loop: likewise buffer-independent.
theorem write_fixed_loop_append :
    ∀ (rem : Nat) (buf : List Nat) (val n : Nat),
      write_fixed_loop buf val n rem = buf ++ write_fixed_loop [] val n rem := by
  intro rem
  induction rem with
  | zero => intro buf val n; simp [write_fixed_loop]
  | succ rem ih =>
    intro buf val n
    conv_lhs => rw [write_fixed_loop]
    conv_rhs => rw [write_fixed_loop]
    rw [ih (buf ++ _) val (n + 1), ih ([] ++ _) val (n + 1)]
    simp [List.append_assoc]

-- One-step unfoldings of the varint write loop (the definition uses
-- well-founded recursion, which the kernel does not reduce definitionally).
theorem write_varint_to_buffer_last (v : Nat) (h : ¬ v > 0x80) :
    write_varint_to_buffer [] v = [v % 256] := by
  rw [write_varint_to_buffer, if_neg h]
  simp

theorem write_varint_to_buffer_step (v : Nat) (h : v > 0x80) :
    write_varint_to_buffer [] v
      = ((v &&& 0x7f) % 256 ||| 0x80) :: write_varint_to_buffer [] (v >>> 7) := by
  rw [write_varint_to_buffer, if_pos h, write_varint_to_buffer_append]
  simp

-- Xor against an all-ones mask is complement within the mask width.
theorem xor_two_pow_sub_one_of_lt {w a : Nat} (h : a < 2 ^ w) :
    a ^^^ (2 ^ w - 1) = 2 ^ w - 1 - a := by
  apply Nat.eq_of_testBit_eq
  intro i
  rcases lt_or_ge i w with hi | hi
  · have hsub : 2 ^ w - 1 - a = 2 ^ w - (a + 1) := by omega
    rw [hsub, Nat.testBit_xor, Nat.testBit_two_pow_sub_one,
      Nat.testBit_two_pow_sub_succ h]
    simp [hi]
  · have hik : a < 2 ^ i := lt_of_lt_of_le h (Nat.pow_le_pow_right (by norm_num) hi)
    have h1 : Nat.testBit a i = false := Nat.testBit_lt_two_pow hik
    have h2 : Nat.testBit (2 ^ w - 1 - a) i = false := by
      apply Nat.testBit_lt_two_pow
      have := Nat.two_pow_pos w
      calc 2 ^ w - 1 - a < 2 ^ w := by omega
        _ ≤ 2 ^ i := Nat.pow_le_pow_right (by norm_num) hi
    rw [Nat.testBit_xor, h1, Nat.testBit_two_pow_sub_one, h2]
    simp [Nat.not_lt.mpr hi]

-- Characterization of the failing wire-type codes of `type_from_u8`.
theorem type_from_u8_eq_none_iff (v : Nat) :
    type_from_u8 v = Option.none ↔
      (v &&& 0x7 = 3 ∨ v &&& 0x7 = 4 ∨ v &&& 0x7 = 6) := by
  have h8 : v &&& 0x7 ≤ 0x7 := Nat.and_le_right
  simp only [type_from_u8]
  generalize hk : v &&& 0x7 = k
  rw [hk] at h8
  interval_cases k <;> simp

-- Unfolding `write_length_varint` to its two varint byte runs.
theorem write_length_varint_spec (pb : Protobuf) (tag val : Nat) :
    (pb.write_length_varint tag val).buf
      = pb.buf ++ (write_varint_to_buffer [] (((tag <<< 3) % 2 ^ 64) ||| 2)
          ++ write_varint_to_buffer [] val)
    ∧ (pb.write_length_varint tag val).pos = pb.pos := by
  constructor
  · simp only [Protobuf.write_length_varint, Protobuf.write_field,
      Protobuf.write_varint, type_to_u64]
    rw [write_varint_to_buffer_append val, write_varint_to_buffer_append _ pb.buf]
    simp [List.append_assoc]
  · rfl

-- One step of the `read_fixed` loop when the next byte is in bounds.
theorem read_fixed_loop_cons (buf : List Nat) (val pos n rem b : Nat)
    (hb : buf.get? pos = some b) :
    read_fixed_loop buf val pos n (rem + 1)
      = read_fixed_loop buf (val ||| (b <<< (n <<< 3))) (pos + 1) (n + 1) rem := by
  rw [read_fixed_loop, hb]

-- Merging the low byte of `w` with the masked remaining bytes, all shifted
-- into position `k`, recovers the low `m + 8` bits of `w` at position `k`.
theorem byte_merge (w k m : Nat) :
    ((w % 256) <<< k) ||| (((w >>> 8) % 2 ^ m) <<< (k + 8)) = (w % 2 ^ (m + 8)) <<< k := by
  have h256 : (256 : Nat) = 2 ^ 8 := by norm_num
  apply Nat.eq_of_testBit_eq
  intro i
  rw [h256]
  simp only [Nat.testBit_or, Nat.testBit_shiftLeft, Nat.testBit_mod_two_pow,
    Nat.testBit_shiftRight]
  by_cases hk : k ≤ i
  · by_cases h8 : i - k < 8
    · have hk8 : ¬ (k + 8 ≤ i) := by omega
      have hm8 : i - k < m + 8 := by omega
      simp [hk, h8, hk8, hm8]
    · by_cases hk8 : k + 8 ≤ i
      · have he : 8 + (i - (k + 8)) = i - k := by omega
        by_cases hm : i - (k + 8) < m
        · have hm2 : i - k < m + 8 := by omega
          simp [hk, h8, hk8, hm, hm2, he]
        · have hm2 : ¬ (i - k < m + 8) := by omega
          simp [hk, h8, hk8, hm, hm2]
      · omega
  · have hk8 : ¬ (k + 8 ≤ i) := by omega
    simp [hk, hk8]

-- Reading the bytes the `write_fixed` loop just appended reassembles the
-- written word: `rem` bytes starting at shift index `n` carry exactly bits
-- `8n ..< 8n + 8 rem` of `val`.
theorem read_fixed_loop_write_fixed_loop :
    ∀ (rem : Nat) (pre : List Nat) (val acc n : Nat),
      read_fixed_loop (pre ++ write_fixed_loop [] val n rem) acc pre.length n rem
        = some (acc ||| (((val >>> (n <<< 3)) % 2 ^ (8 * rem)) <<< (n <<< 3)),
                pre.length + rem) := by
  intro rem
  induction rem with
  | zero =>
    intro pre val acc n
    simp [write_fixed_loop, read_fixed_loop, Nat.mod_one]
  | succ rem ih =>
    intro pre val acc n
    have hw : write_fixed_loop [] val n (rem + 1)
        = ((val >>> (n <<< 3)) % 256) :: write_fixed_loop [] val (n + 1) rem := by
      conv_lhs => rw [write_fixed_loop, write_fixed_loop_append]
      simp
    rw [hw]
    have hsplit : pre ++ ((val >>> (n <<< 3)) % 256) :: write_fixed_loop [] val (n + 1) rem
        = (pre ++ [(val >>> (n <<< 3)) % 256]) ++ write_fixed_loop [] val (n + 1) rem := by
      simp
    rw [hsplit]
    have hget : ((pre ++ [(val >>> (n <<< 3)) % 256])
          ++ write_fixed_loop [] val (n + 1) rem).get? pre.length
        = some ((val >>> (n <<< 3)) % 256) := by
      rw [List.get?_append (by simp)]
      exact List.get?_concat_length pre ((val >>> (n <<< 3)) % 256)
    rw [read_fixed_loop_cons _ _ _ _ _ _ hget]
    have hlen : pre.length + 1 = (pre ++ [(val >>> (n <<< 3)) % 256]).length := by simp
    rw [hlen]
    rw [ih (pre ++ [(val >>> (n <<< 3)) % 256]) val
      (acc ||| (((val >>> (n <<< 3)) % 256) <<< (n <<< 3))) (n + 1)]
    simp only [Option.some.injEq, Prod.mk.injEq]
    constructor
    · rw [Nat.or_assoc]
      congr 1
      have hs : (n + 1) <<< 3 = n <<< 3 + 8 := by
        simp only [Nat.shiftLeft_eq]
        ring
      have h8 : 8 * (rem + 1) = 8 * rem + 8 := by ring
      rw [hs, h8, Nat.shiftRight_add]
      exact byte_merge (val >>> (n <<< 3)) (n <<< 3) (8 * rem)
    · simp
      omega

-- ===== Claim theorems =======================================================

/-- Claim C1 (varint round-trip): the code violates it at `v = 128`.  The
`while val > 0x80` loop guard in `write_varint` is strict, so 128 is emitted
as the single byte `0x80`, whose continuation (top) bit is set even though it
is the last byte; `decode_varint` on that output then runs past the end of
the buffer (an index panic) instead of returning 128.  The claim's concrete
examples for 0 and 300 do hold. -/
theorem write_varint_128_dangling_continuation :
    write_varint_to_buffer [] 0 = [0x00] ∧
    write_varint_to_buffer [] 300 = [0xAC, 0x02] ∧
    write_varint_to_buffer [] 128 = [0x80] ∧
    (Protobuf.from_input (write_varint_to_buffer [] 128)).decode_varint = Option.none := by
  have h0 : write_varint_to_buffer [] 0 = [0x00] := by
    rw [write_varint_to_buffer_last 0 (by decide)]
  have h300 : write_varint_to_buffer [] 300 = [0xAC, 0x02] := by
    rw [write_varint_to_buffer_step 300 (by decide),
      write_varint_to_buffer_last (300 >>> 7) (by decide)]
    decide
  have h128 : write_varint_to_buffer [] 128 = [0x80] := by
    rw [write_varint_to_buffer_last 128 (by decide)]
  refine ⟨h0, h300, h128, ?_⟩
  rw [h128]
  decide

/-- Claim C6 (field-key packing round-trip): the code violates it at
`tag = 16`, wire type Varint.  The key is `(16 << 3) | 0 = 128`, which the
buggy `write_varint` emits as the lone continuation byte `0x80`, so
`read_field` runs out of buffer instead of returning `(16, Varint)`.  The
packing arithmetic itself is as claimed, as the working `(5, Bytes)`
instance (key `0x2A`) shows. -/
theorem write_field_tag16_varint_unreadable :
    ((Protobuf.new).write_field 16 WireType.Varint).buf = [0x80] ∧
    (Protobuf.from_input [0x80]).read_field = Option.none ∧
    ((Protobuf.new).write_field 5 WireType.Bytes).buf = [0x2A] ∧
    (Protobuf.from_input [0x2A]).read_field =
      some ({ tag := 5, type := WireType.Bytes }, { buf := [0x2A], pos := 1 }) := by
  have hk16 : (16 <<< 3) % 2 ^ 64 ||| type_to_u64 WireType.Varint = 128 := by decide
  have hk5 : (5 <<< 3) % 2 ^ 64 ||| type_to_u64 WireType.Bytes = 42 := by decide
  refine ⟨?_, by decide, ?_, by decide⟩
  · show write_varint_to_buffer [] ((16 <<< 3) % 2 ^ 64 ||| type_to_u64 WireType.Varint)
      = [0x80]
    rw [hk16, write_varint_to_buffer_last 128 (by decide)]
  · show write_varint_to_buffer [] ((5 <<< 3) % 2 ^ 64 ||| type_to_u64 WireType.Bytes)
      = [0x2A]
    rw [hk5, write_varint_to_buffer_last 42 (by decide)]

/-- Claim C4, counterexample: decoding the packed field `[0x01, 0x80, 0x00]`
(declared payload length 1, so end offset 2) consumes a two-byte varint that
overshoots the end offset, and `read_packed` returns `some ([0], cursor 3)`
with the cursor strictly past the end offset — no misalignment error is
raised, contradicting "fails fatally rather than returning a result". -/
theorem read_packed_overshoot_returns_result :
    (Protobuf.from_input [1, 0x80, 0]).decode_varint
      = some (1, { buf := [1, 0x80, 0], pos := 1 }) ∧
    (Protobuf.from_input [1, 0x80, 0]).read_packed
      = some ([0], { buf := [1, 0x80, 0], pos := 3 }) ∧
    1 + 1 < 3 := by
  decide

/-- Claim C4, amended: the packed-repeated loop and the message field loop
terminate with the cursor at or past their declared end offset; when
consuming an element or field moves the cursor strictly past the end offset,
the loop silently exits with the cursor past the end and the operation still
returns its result — no misalignment error exists in the code. -/
theorem read_loops_end_at_or_past :
    (∀ (endPos fuel : Nat) (pb : Protobuf) (acc : List Nat) (res : List Nat × Protobuf),
       read_packed_loop endPos fuel pb acc = some res → endPos ≤ res.2.pos) ∧
    (∀ (α : Type) (dispatch : α → Nat → Protobuf → α × Protobuf)
       (endPos fuel : Nat) (t : α) (pb : Protobuf) (res : α × Protobuf),
       read_fields_loop dispatch endPos fuel t pb = some res → endPos ≤ res.2.pos) := by
  constructor
  · intro endPos fuel
    induction fuel with
    | zero =>
      intro pb acc res h
      rw [read_packed_loop] at h
      by_cases hlt : pb.pos < endPos
      · rw [if_pos hlt] at h; exact absurd h (by simp)
      · rw [if_neg hlt] at h
        cases h
        exact Nat.le_of_not_lt hlt
    | succ fuel ih =>
      intro pb acc res h
      rw [read_packed_loop] at h
      by_cases hlt : pb.pos < endPos
      · rw [if_pos hlt] at h
        cases hdv : pb.decode_varint with
        | none => rw [hdv] at h; exact absurd h (by simp)
        | some vp => rw [hdv] at h; exact ih vp.2 (acc ++ [vp.1]) res h
      · rw [if_neg hlt] at h
        cases h
        exact Nat.le_of_not_lt hlt
  · intro α dispatch endPos fuel
    induction fuel with
    | zero =>
      intro t pb res h
      rw [read_fields_loop] at h
      by_cases hlt : pb.pos < endPos
      · rw [if_pos hlt] at h; exact absurd h (by simp)
      · rw [if_neg hlt] at h
        cases h
        exact Nat.le_of_not_lt hlt
    | succ fuel ih =>
      intro t pb res h
      rw [read_fields_loop] at h
      by_cases hlt : pb.pos < endPos
      · rw [if_pos hlt] at h
        cases hrf : pb.read_field with
        | none => rw [hrf] at h; exact absurd h (by simp)
        | some fp =>
          rw [hrf] at h
          simp only at h
          by_cases heq : fp.2.pos == (dispatch t fp.1.tag fp.2).2.pos
          · rw [if_pos heq] at h
            cases hsk : (dispatch t fp.1.tag fp.2).2.skip fp.1.type with
            | none => rw [hsk] at h; exact absurd h (by simp)
            | some pb3 => rw [hsk] at h; exact ih (dispatch t fp.1.tag fp.2).1 pb3 res h
          · rw [if_neg heq] at h
            exact ih (dispatch t fp.1.tag fp.2).1 (dispatch t fp.1.tag fp.2).2 res h
      · rw [if_neg hlt] at h
        cases h
        exact Nat.le_of_not_lt hlt

/-- Claim C4, witness: the amended theorem applied to the overshooting packed
run above — the returned cursor 3 is at or past the end offset 2. -/
theorem read_loops_end_at_or_past_witness :
    (2 : Nat) ≤ (Protobuf.mk [1, 0x80, 0] 3).pos :=
  read_loops_end_at_or_past.1 2 3 (Protobuf.mk [1, 0x80, 0] 1) []
    ([0], Protobuf.mk [1, 0x80, 0] 3) (by decide)

/-- Claim C5, counterexample: `skip` of a Fixed64 field on an empty buffer
succeeds and leaves the cursor at 8, past the buffer length 0, and `set_pos 5`
on an empty buffer stores 5 — neither operation fails, contradicting "fails
fatally instead of leaving the cursor past the end". -/
theorem skip_and_set_pos_exceed_len :
    (Protobuf.from_input []).skip WireType.Fixed64 = some { buf := [], pos := 8 } ∧
    ((Protobuf.from_input []).skip WireType.Fixed64).map (fun pb => decide (pb.pos > pb.len))
      = some true ∧
    (Protobuf.from_input []).set_pos 5 = { buf := [], pos := 5 } ∧
    ((Protobuf.from_input []).set_pos 5).pos > ((Protobuf.from_input []).set_pos 5).len := by
  decide

/-- Claim C5, amended: the cursor-bounds invariant does not hold as stated.
`skip` of Fixed64/Fixed32 bumps the cursor by 8/4 and `set_pos` stores any
position, with no bounds check and no failure, so the cursor can exceed the
buffer length; only operations that actually dereference the buffer fail
fatally when out of range: `decode_varint` with the cursor at or past the
end, and `read_fixed` of a positive width with fewer remaining bytes than
the width. -/
theorem cursor_bounds_amended :
    (∀ pb : Protobuf, ∃ pb', pb.skip WireType.Fixed64 = some pb' ∧ pb'.pos = pb.pos + 8) ∧
    (∀ pb : Protobuf, ∃ pb', pb.skip WireType.Fixed32 = some pb' ∧ pb'.pos = pb.pos + 4) ∧
    (∀ (pb : Protobuf) (p : Nat), (pb.set_pos p).pos = p) ∧
    (∀ pb : Protobuf, pb.pos ≥ pb.len → pb.decode_varint = Option.none) ∧
    (∀ (pb : Protobuf) (size : Nat), 1 ≤ size → pb.len < pb.pos + size →
       pb.read_fixed size = Option.none) := by
  refine ⟨fun pb => ⟨_, rfl, rfl⟩, fun pb => ⟨_, rfl, rfl⟩, fun pb p => rfl, ?_, ?_⟩
  · intro pb h
    rw [Protobuf.decode_varint, if_pos h]
  · have hloop : ∀ (rem : Nat) (buf : List Nat) (val pos n : Nat),
        1 ≤ rem → buf.length < pos + rem →
        read_fixed_loop buf val pos n rem = Option.none := by
      intro rem
      induction rem with
      | zero => intro _ _ _ _ h1 _; omega
      | succ rem ih =>
        intro buf val pos n _ h2
        rw [read_fixed_loop]
        cases hb : buf.get? pos with
        | none => rfl
        | some b =>
          have hpos : pos < buf.length := List.get?_eq_some.mp hb |>.choose
          exact ih buf (val ||| (b <<< (n <<< 3))) (pos + 1) (n + 1) (by omega) (by omega)
    intro pb size h1 h2
    rw [Protobuf.read_fixed, hloop size pb.buf 0 pb.pos 0 h1 h2]
    rfl

/-- Claim C5, witness: the amended theorem applied to an empty buffer — skip
of Fixed64 yields cursor 8, and `decode_varint` at the end fails. -/
theorem cursor_bounds_amended_witness :
    (∃ pb', (Protobuf.from_input []).skip WireType.Fixed64 = some pb' ∧ pb'.pos = 0 + 8) ∧
    (Protobuf.from_input []).decode_varint = Option.none ∧
    (Protobuf.from_input [7]).read_fixed 4 = Option.none :=
  ⟨cursor_bounds_amended.1 (Protobuf.from_input []),
   cursor_bounds_amended.2.2.2.1 (Protobuf.from_input []) (by decide),
   cursor_bounds_amended.2.2.2.2 (Protobuf.from_input [7]) 4 (by decide) (by decide)⟩

/-- Claim C7: converting a u8 to a wire type fails (panics) exactly on the
3-bit codes 3, 4 and 6, and `read_field` aborts with no guessed wire type
whenever the decoded key's low 3 bits are such a code. -/
theorem invalid_wire_type_code_fatal :
    (∀ v : Nat, type_from_u8 v = Option.none ↔
       (v &&& 0x7 = 3 ∨ v &&& 0x7 = 4 ∨ v &&& 0x7 = 6)) ∧
    (∀ (pb : Protobuf) (vp : Nat × Protobuf), pb.decode_varint = some vp →
       (vp.1 &&& 0x7 = 3 ∨ vp.1 &&& 0x7 = 4 ∨ vp.1 &&& 0x7 = 6) →
       pb.read_field = Option.none) := by
  refine ⟨type_from_u8_eq_none_iff, ?_⟩
  intro pb vp hdv hbad
  rw [Protobuf.read_field, hdv]
  have h77 : (0x7 &&& 0x7 : Nat) = 0x7 := by decide
  have hmask : (vp.1 &&& 0x7) &&& 0x7 = vp.1 &&& 0x7 := by
    rw [Nat.and_assoc, h77]
  have hnone : type_from_u8 (vp.1 &&& 0x7) = Option.none := by
    rw [type_from_u8_eq_none_iff, hmask]
    exact hbad
  rw [Option.some_bind, hnone]
  rfl

/-- Claim C7, witness: code 6 (key byte `0x0E` has low bits 6) aborts
`read_field` on a concrete buffer. -/
theorem invalid_wire_type_code_fatal_witness :
    type_from_u8 6 = Option.none ∧ (Protobuf.from_input [0x0E]).read_field = Option.none :=
  ⟨(invalid_wire_type_code_fatal.1 6).mpr (by decide),
   invalid_wire_type_code_fatal.2 (Protobuf.from_input [0x0E])
     (0x0E, { buf := [0x0E], pos := 1 }) (by decide) (by decide)⟩

/-- Claim C8: `write_fixed_field` derives the wire type from the value's byte
width — width 4 yields a Fixed32 key (code 5), width 8 a Fixed64 key
(code 1) — and any other width is a fatal width error raised before anything
is written. -/
theorem write_fixed_field_width_dispatch (pb : Protobuf) (tag val size : Nat) :
    (size = 4 → pb.write_fixed_field size tag val
       = some { buf := pb.buf ++ write_varint_to_buffer [] (((tag <<< 3) % 2 ^ 64) ||| 5)
                  ++ write_fixed_loop [] val 0 4,
                pos := pb.pos }) ∧
    (size = 8 → pb.write_fixed_field size tag val
       = some { buf := pb.buf ++ write_varint_to_buffer [] (((tag <<< 3) % 2 ^ 64) ||| 1)
                  ++ write_fixed_loop [] val 0 8,
                pos := pb.pos }) ∧
    (size ≠ 4 → size ≠ 8 → pb.write_fixed_field size tag val = Option.none) := by
  refine ⟨?_, ?_, ?_⟩
  · rintro rfl
    show some ((pb.write_field tag WireType.Fixed32).write_fixed 4 val) = _
    simp only [Protobuf.write_fixed, Protobuf.write_field, Protobuf.write_varint, type_to_u64]
    conv_lhs => rw [write_fixed_loop_append, write_varint_to_buffer_append]
  · rintro rfl
    show some ((pb.write_field tag WireType.Fixed64).write_fixed 8 val) = _
    simp only [Protobuf.write_fixed, Protobuf.write_field, Protobuf.write_varint, type_to_u64]
    conv_lhs => rw [write_fixed_loop_append, write_varint_to_buffer_append]
  · intro h4 h8
    simp only [Protobuf.write_fixed_field]
    rfl

/-- Claim C8, witness: width 4 emits a Fixed32 field, width 2 fails. -/
theorem write_fixed_field_width_dispatch_witness :
    ((Protobuf.new).write_fixed_field 4 1 0
       = some { buf := [] ++ write_varint_to_buffer [] (((1 <<< 3) % 2 ^ 64) ||| 5)
                  ++ write_fixed_loop [] 0 0 4,
                pos := 0 }) ∧
    (Protobuf.new).write_fixed_field 2 1 0 = Option.none :=
  ⟨(write_fixed_field_width_dispatch Protobuf.new 1 0 4).1 rfl,
   (write_fixed_field_width_dispatch Protobuf.new 1 0 2).2.2 (by decide) (by decide)⟩

/-- Claim C10: every write operation appends — the byte sequence before the
call is a prefix of the byte sequence after it — and leaves the read cursor
untouched. -/
theorem writes_append_only (pb : Protobuf) :
    (∀ val, ∃ t, (pb.write_varint val).buf = pb.buf ++ t
       ∧ (pb.write_varint val).pos = pb.pos) ∧
    (∀ size val, ∃ t, (pb.write_fixed size val).buf = pb.buf ++ t
       ∧ (pb.write_fixed size val).pos = pb.pos) ∧
    (∀ tag ty, ∃ t, (pb.write_field tag ty).buf = pb.buf ++ t
       ∧ (pb.write_field tag ty).pos = pb.pos) ∧
    (∀ tag val, ∃ t, (pb.write_varint_field tag val).buf = pb.buf ++ t
       ∧ (pb.write_varint_field tag val).pos = pb.pos) ∧
    (∀ tag s, ∃ t, (pb.write_string_field tag s).buf = pb.buf ++ t
       ∧ (pb.write_string_field tag s).pos = pb.pos) ∧
    (∀ tag bs, ∃ t, (pb.write_bytes_field tag bs).buf = pb.buf ++ t
       ∧ (pb.write_bytes_field tag bs).pos = pb.pos) ∧
    (∀ tag vs, ∃ t, (pb.write_packed_varint tag vs).buf = pb.buf ++ t
       ∧ (pb.write_packed_varint tag vs).pos = pb.pos) ∧
    (∀ tag bs, ∃ t, (pb.write_message tag bs).buf = pb.buf ++ t
       ∧ (pb.write_message tag bs).pos = pb.pos) := by
  refine ⟨?_, ?_, ?_, ?_, ?_, ?_, ?_, ?_⟩
  · intro val
    exact ⟨write_varint_to_buffer [] val,
      by rw [Protobuf.write_varint, write_varint_to_buffer_append], rfl⟩
  · intro size val
    exact ⟨write_fixed_loop [] val 0 size,
      by rw [Protobuf.write_fixed, write_fixed_loop_append], rfl⟩
  · intro tag ty
    exact ⟨write_varint_to_buffer [] (((tag <<< 3) % 2 ^ 64) ||| type_to_u64 ty),
      by rw [Protobuf.write_field, Protobuf.write_varint, write_varint_to_buffer_append], rfl⟩
  · intro tag val
    refine ⟨write_varint_to_buffer [] (((tag <<< 3) % 2 ^ 64) ||| type_to_u64 WireType.Varint)
        ++ write_varint_to_buffer [] val, ?_, rfl⟩
    simp only [Protobuf.write_varint_field, Protobuf.write_field, Protobuf.write_varint]
    rw [write_varint_to_buffer_append val, write_varint_to_buffer_append _ pb.buf]
    simp [List.append_assoc]
  · intro tag s
    refine ⟨(write_varint_to_buffer [] (((tag <<< 3) % 2 ^ 64) ||| 2)
        ++ write_varint_to_buffer [] s.length) ++ s, ?_, ?_⟩
    · show (pb.write_length_varint tag s.length).buf ++ s = _
      rw [(write_length_varint_spec pb tag s.length).1]
      simp [List.append_assoc]
    · exact (write_length_varint_spec pb tag s.length).2
  · intro tag bs
    refine ⟨(write_varint_to_buffer [] (((tag <<< 3) % 2 ^ 64) ||| 2)
        ++ write_varint_to_buffer [] bs.length) ++ bs, ?_, ?_⟩
    · show (pb.write_length_varint tag bs.length).buf ++ bs = _
      rw [(write_length_varint_spec pb tag bs.length).1]
      simp [List.append_assoc]
    · exact (write_length_varint_spec pb tag bs.length).2
  · intro tag vs
    refine ⟨(write_varint_to_buffer [] (((tag <<< 3) % 2 ^ 64) ||| 2)
        ++ write_varint_to_buffer []
             (vs.foldl (fun acc v => write_varint_to_buffer acc v) []).length)
        ++ vs.foldl (fun acc v => write_varint_to_buffer acc v) [], ?_, ?_⟩
    · show (pb.write_length_varint tag
          (vs.foldl (fun acc v => write_varint_to_buffer acc v) []).length).buf ++ _ = _
      rw [(write_length_varint_spec pb tag
        (vs.foldl (fun acc v => write_varint_to_buffer acc v) []).length).1]
      simp [List.append_assoc]
    · exact (write_length_varint_spec pb tag
        (vs.foldl (fun acc v => write_varint_to_buffer acc v) []).length).2
  · intro tag bs
    refine ⟨(write_varint_to_buffer [] (((tag <<< 3) % 2 ^ 64) ||| 2)
        ++ write_varint_to_buffer [] bs.length) ++ bs, ?_, ?_⟩
    · show (pb.write_length_varint tag bs.length).buf ++ bs = _
      rw [(write_length_varint_spec pb tag bs.length).1]
      simp [List.append_assoc]
    · exact (write_length_varint_spec pb tag bs.length).2

/-- Claim C3: zigzag is inverted by zagzig on the whole signed 64-bit range,
including the two's-complement boundary values `i64::MIN` and `i64::MAX`,
with the concrete values `zigzag (-5) = 9`, `zagzig 9 = -5`, `zigzag 0 = 0`. -/
theorem zigzag_zagzig_roundtrip (v : Int) (h1 : -(2 ^ 63) ≤ v) (h2 : v < 2 ^ 63) :
    zagzig (zigzag v) = v ∧ zigzag (-5) = 9 ∧ zagzig 9 = -5 ∧ zigzag 0 = 0 := by
  refine ⟨?_, by decide, by decide, by decide⟩
  rcases le_or_lt 0 v with hv | hv
  · obtain ⟨n, rfl⟩ := Int.eq_ofNat_of_zero_le hv
    have hn : n < 2 ^ 63 := by exact_mod_cast h2
    have e1 : toU64 ((n : Int) * 2) = 2 * n := by
      unfold toU64
      rw [Int.emod_eq_of_lt (by omega) (by omega)]
      omega
    have e2 : Int.shiftRight (n : Int) 63 = 0 := by
      have hz : n >>> 63 = 0 := by
        rw [Nat.shiftRight_eq_div_pow]
        exact Nat.div_eq_of_lt (by omega)
      show Int.ofNat (n >>> 63) = 0
      rw [hz]
      rfl
    have e3 : toU64 0 = 0 := by decide
    rw [zigzag, e1, e2, e3, Nat.xor_zero, zagzig]
    have a1 : (2 * n) >>> 1 = n := by
      rw [Nat.shiftRight_eq_div_pow, pow_one]
      omega
    have a2 : 2 * n &&& 1 = 0 := by
      rw [Nat.and_one_is_mod]
      omega
    rw [a1, a2]
    have a3 : toU64 (-((0 : Nat) : Int)) = 0 := by decide
    rw [a3, Nat.xor_zero, toI64, if_pos hn]
  · obtain ⟨m, hm⟩ : ∃ m : Nat, (m : Int) = -v := ⟨(-v).toNat, Int.toNat_of_nonneg (by omega)⟩
    have hm1 : 1 ≤ m := by omega
    have hm2 : m ≤ 2 ^ 63 := by omega
    have e1 : toU64 (v * 2) = 2 ^ 64 - 2 * m := by
      unfold toU64
      have hvm : v * 2 = -(2 * (m : Int)) := by omega
      rw [hvm]
      omega
    have e2 : Int.shiftRight v 63 = -1 := by
      have hneg : v = Int.negSucc (m - 1) := by
        have := Int.negSucc_eq (m - 1)
        omega
      rw [hneg]
      show Int.negSucc ((m - 1) >>> 63) = -1
      have hz : (m - 1) >>> 63 = 0 := by
        rw [Nat.shiftRight_eq_div_pow]
        exact Nat.div_eq_of_lt (by omega)
      rw [hz]
      rfl
    have e3 : toU64 (-1) = 2 ^ 64 - 1 := by
      unfold toU64
      omega
    have ex1 : (2 ^ 64 - 2 * m) ^^^ (2 ^ 64 - 1) = 2 * m - 1 := by
      rw [xor_two_pow_sub_one_of_lt (show 2 ^ 64 - 2 * m < 2 ^ 64 by omega)]
      omega
    rw [zigzag, e1, e2, e3, ex1, zagzig]
    have a1 : (2 * m - 1) >>> 1 = m - 1 := by
      rw [Nat.shiftRight_eq_div_pow, pow_one]
      omega
    have a2 : (2 * m - 1) &&& 1 = 1 := by
      rw [Nat.and_one_is_mod]
      omega
    rw [a1, a2]
    have a3 : toU64 (-((1 : Nat) : Int)) = 2 ^ 64 - 1 := by decide
    rw [a3, xor_two_pow_sub_one_of_lt (show m - 1 < 2 ^ 64 by omega)]
    have hval : 2 ^ 64 - 1 - (m - 1) = 2 ^ 64 - m := by omega
    rw [hval, toI64, if_neg (by omega)]
    omega

/-- Claim C3, witness: the round trip at the boundary value `i64::MIN`,
together with the concrete values. -/
theorem zigzag_zagzig_roundtrip_witness :
    zagzig (zigzag (-(2 ^ 63))) = -(2 ^ 63) ∧ zigzag (-5) = 9 :=
  ⟨(zigzag_zagzig_roundtrip (-(2 ^ 63)) (by norm_num) (by norm_num)).1,
   (zigzag_zagzig_roundtrip (-(2 ^ 63)) (by norm_num) (by norm_num)).2.1⟩

/-- Claim C9: a fixed-width write of a word below `2 ^ (8 * size)` emits
exactly `size` raw little-endian bytes and `read_fixed` of those bytes
reproduces the word bit-exactly.  Concretely, the i32 value -5 (bit pattern
`0xFFFFFFFB` via `i32_to_u64`) is written as the wire bytes
`[0xFB, 0xFF, 0xFF, 0xFF]` and read back as -5 via `i32_from_u64`, and the
f64 value 5.5 (IEEE-754 bit pattern `0x4016000000000000`, carried through
`f64::to_bits` / `from_bits`) round-trips bit-exactly. -/
theorem fixed_roundtrip_bit_exact (pb : Protobuf) (size val : Nat)
    (hpos : pb.pos = pb.buf.length) (hval : val < 2 ^ (8 * size)) :
    (pb.write_fixed size val).read_fixed size
      = some (val, { buf := (pb.write_fixed size val).buf, pos := pb.pos + size }) ∧
    ((Protobuf.new).write_fixed 4 (i32_to_u64 (-5))).buf = [0xFB, 0xFF, 0xFF, 0xFF] ∧
    (((Protobuf.new).write_fixed 4 (i32_to_u64 (-5))).read_fixed 4).map
        (fun vp => i32_from_u64 vp.1) = some (-5) ∧
    (((Protobuf.new).write_fixed 8 0x4016000000000000).read_fixed 8).map
        (fun vp => vp.1) = some 0x4016000000000000 := by
  refine ⟨?_, by decide, by decide, by decide⟩
  rw [Protobuf.read_fixed]
  show (read_fixed_loop (write_fixed_loop pb.buf val 0 size) 0 pb.pos 0 size).map _ = _
  rw [write_fixed_loop_append, hpos,
    read_fixed_loop_write_fixed_loop size pb.buf val 0 0]
  have hv : (0 : Nat) ||| (((val >>> (0 <<< 3)) % 2 ^ (8 * size)) <<< (0 <<< 3)) = val := by
    have hz : (0 : Nat) <<< 3 = 0 := rfl
    rw [hz, Nat.shiftRight_zero, Nat.mod_eq_of_lt hval, Nat.shiftLeft_zero, Nat.zero_or]
  rw [hv]
  rfl

/-- Claim C9, witness: the round trip at size 8 with the IEEE-754 bit
pattern of 5.5. -/
theorem fixed_roundtrip_bit_exact_witness :
    ((Protobuf.new).write_fixed 8 0x4016000000000000).read_fixed 8
      = some (0x4016000000000000,
          { buf := ((Protobuf.new).write_fixed 8 0x4016000000000000).buf,
            pos := 0 + 8 }) :=
  (fixed_roundtrip_bit_exact Protobuf.new 8 0x4016000000000000 rfl (by norm_num)).1

/-- Claim C2: whenever the read-dispatch leaves the cursor unchanged after a
field key is decoded, the `read_fields` loop itself consumes the value
according to the key's wire type — the end of the varint for Varint, 8 bytes
for Fixed64, 4 bytes for Fixed32, the decoded length past the length prefix
for Bytes, and nothing for None — and then continues.  Concretely, on the
buffer holding tag 1 (varint 5) and tag 2 (bytes "x", i.e. [0x78]) with a
dispatch that only handles tag 2, decoding completes without error, the
cursor reaches the buffer end 5, and the tag-1 slot of the result is absent
(`Option.none`). -/
theorem read_fields_unknown_field_skip :
    (∀ (α : Type) (dispatch : α → Nat → Protobuf → α × Protobuf) (fuel : Nat)
       (t : α) (pb : Protobuf) (endPos : Nat) (fp : Field × Protobuf)
       (t2 : α) (pb2 : Protobuf),
       pb.pos < endPos →
       pb.read_field = some fp →
       dispatch t fp.1.tag fp.2 = (t2, pb2) →
       pb2.pos = fp.2.pos →
       ((fp.1.type = WireType.Varint →
           ∀ vp : Nat × Protobuf, pb2.decode_varint = some vp →
             read_fields_loop dispatch endPos (fuel + 1) t pb
               = read_fields_loop dispatch endPos fuel t2 vp.2) ∧
        (fp.1.type = WireType.Fixed64 →
           read_fields_loop dispatch endPos (fuel + 1) t pb
             = read_fields_loop dispatch endPos fuel t2 { pb2 with pos := pb2.pos + 8 }) ∧
        (fp.1.type = WireType.Fixed32 →
           read_fields_loop dispatch endPos (fuel + 1) t pb
             = read_fields_loop dispatch endPos fuel t2 { pb2 with pos := pb2.pos + 4 }) ∧
        (fp.1.type = WireType.Bytes →
           ∀ vp : Nat × Protobuf, pb2.decode_varint = some vp →
             read_fields_loop dispatch endPos (fuel + 1) t pb
               = read_fields_loop dispatch endPos fuel t2
                   { vp.2 with pos := vp.2.pos + vp.1 }) ∧
        (fp.1.type = WireType.None →
           read_fields_loop dispatch endPos (fuel + 1) t pb
             = read_fields_loop dispatch endPos fuel t2 pb2))) ∧
    read_fields_loop tag2_dispatch 5 10 (Option.none, Option.none)
        (Protobuf.from_input [8, 5, 0x12, 1, 0x78])
      = some ((Option.none, some [0x78]), { buf := [8, 5, 0x12, 1, 0x78], pos := 5 }) := by
  constructor
  · intro α dispatch fuel t pb endPos fp t2 pb2 hlt hrf hd hpos
    have hstep : read_fields_loop dispatch endPos (fuel + 1) t pb
        = match pb2.skip fp.1.type with
          | Option.none => Option.none
          | some pb3 => read_fields_loop dispatch endPos fuel t2 pb3 := by
      simp only [read_fields_loop, if_pos hlt, hrf, hd, hpos, beq_self_eq_true, if_true]
    refine ⟨?_, ?_, ?_, ?_, ?_⟩
    · intro ht vp hvp
      rw [hstep, ht]
      simp [Protobuf.skip, hvp]
    · intro ht
      rw [hstep, ht]
      simp [Protobuf.skip]
    · intro ht
      rw [hstep, ht]
      simp [Protobuf.skip]
    · intro ht vp hvp
      rw [hstep, ht]
      simp [Protobuf.skip, hvp]
    · intro ht
      rw [hstep, ht]
      simp [Protobuf.skip]
  · decide

/-- Claim C2, witness: the engine-side skip applied to a concrete buffer
whose first field is a varint at tag 1, with a dispatch that consumes
nothing — the loop continues past the varint value. -/
theorem read_fields_unknown_field_skip_witness :
    read_fields_loop (fun (t : Unit) (_ : Nat) (pb : Protobuf) => (t, pb)) 2 2 ()
        (Protobuf.from_input [8, 5])
      = read_fields_loop (fun (t : Unit) (_ : Nat) (pb : Protobuf) => (t, pb)) 2 1 ()
          { buf := [8, 5], pos := 2 } :=
  ((read_fields_unknown_field_skip.1 Unit (fun t _ pb => (t, pb)) 1 ()
      (Protobuf.from_input [8, 5]) 2
      ({ tag := 1, type := WireType.Varint }, { buf := [8, 5], pos := 1 }) ()
      { buf := [8, 5], pos := 1 } (by decide) (by decide) rfl rfl).1 rfl
    (5, { buf := [8, 5], pos := 2 }) (by decide))

end Pbf
